import Mathlib

/- Verification of the URL-parsing core of a small web-browser engine
written in Rust (src/rust-web-browser/src/url.rs).  Strings are modelled
as lists of characters.  The Rust method str::split_once, which splits a
string at the first occurrence of a delimiter, is modelled by splitOnce
below; Url::new is modelled by Url.new.  Url::request performs real TCP
input/output and is outside the pure embedding. -/

/-- Model of Rust str::split_once: splits at the first occurrence of the
delimiter, returning the pair of the parts before and after it, or none
when the delimiter does not occur in the string. -/
def splitOnce (delim : List Char) : List Char → Option (List Char × List Char)
  | [] => if delim <+: ([] : List Char) then some ([], []) else none
  | c :: rest =>
    if delim <+: c :: rest then
      some ([], (c :: rest).drop delim.length)
    else
      match splitOnce delim rest with
      | some (left, right) => some (c :: left, right)
      | none => none

/-- Parse errors of Url::new, one constructor per error string produced by
the source: the missing "://" delimiter, a scheme other than "http"
(carrying the offending scheme text), and an empty host. -/
inductive ParseError where
  | MissingSchemeDelimiter : ParseError
  | UnsupportedScheme : List Char → ParseError
  | EmptyHost : ParseError
deriving DecidableEq

/-- The Url struct of the source: scheme, host, path and port. -/
structure Url where
  scheme : List Char
  host : List Char
  path : List Char
  port : Nat
deriving DecidableEq

/-- Model of Url::new.  Splits the input at the first "://" (failing with
MissingSchemeDelimiter when absent), requires the scheme to be exactly
"http" (failing with UnsupportedScheme otherwise), splits the remainder at
the first '/' into host and path (the path keeps its leading '/'; when no
'/' occurs the whole remainder is the host and the path is "/"), fails
with EmptyHost when the host is empty, and otherwise returns the Url with
the fixed port 80. -/
def Url.new (url_input : List Char) : Except ParseError Url :=
  match splitOnce "://".toList url_input with
  | none => .error ParseError.MissingSchemeDelimiter
  | some (scheme, rest_of_url) =>
    if scheme ≠ "http".toList then
      .error (ParseError.UnsupportedScheme scheme)
    else
      let hostPath : List Char × List Char :=
        match splitOnce ['/'] rest_of_url with
        | some (host, path) => (host, '/' :: path)
        | none => (rest_of_url, ['/'])
      if hostPath.1 = [] then
        .error ParseError.EmptyHost
      else
        .ok { scheme := scheme, host := hostPath.1, path := hostPath.2, port := 80 }

/-- Decidable equality of parse results, so that Url.new can be evaluated
on concrete inputs by decide. -/
instance : DecidableEq (Except ParseError Url) := fun x y =>
  match x, y with
  | .ok a, .ok b =>
    if h : a = b then isTrue (by rw [h]) else isFalse (by simp [h])
  | .error a, .error b =>
    if h : a = b then isTrue (by rw [h]) else isFalse (by simp [h])
  | .ok _, .error _ => isFalse (by simp)
  | .error _, .ok _ => isFalse (by simp)

/-- A concrete Url value, the parse of "http://example.com/index.html",
used to instantiate the universally quantified theorems below. -/
def exampleUrl : Url :=
  { scheme := "http".toList, host := "example.com".toList,
    path := "/index.html".toList, port := 80 }

/-- When splitOnce succeeds, the input is the left part, the delimiter and
the right part concatenated: the split loses no characters. -/
theorem splitOnce_eq_some_append {d s l r : List Char}
    (h : splitOnce d s = some (l, r)) : s = l ++ d ++ r := by
  induction s generalizing l r with
  | nil =>
    simp only [splitOnce] at h
    split at h
    · rename_i hp
      obtain ⟨rfl, rfl⟩ : l = [] ∧ r = [] := by
        simpa [eq_comm] using h
      simp [List.prefix_nil.mp hp]
    · exact absurd h (by simp)
  | cons c rest ih =>
    simp only [splitOnce] at h
    split at h
    · rename_i hp
      obtain ⟨rfl, rfl⟩ : l = [] ∧ r = (c :: rest).drop d.length := by
        simpa [eq_comm] using h
      simpa using (List.prefix_iff_eq_append.mp hp).symm
    · cases hsp : splitOnce d rest with
      | none => rw [hsp] at h; exact absurd h (by simp)
      | some p =>
        obtain ⟨left, right⟩ := p
        rw [hsp] at h
        obtain ⟨rfl, rfl⟩ : l = c :: left ∧ r = right := by
          simpa [eq_comm] using h
        simpa using ih hsp

/-- splitOnce returns none exactly when the delimiter occurs nowhere in
the string (is not an infix of it). -/
theorem splitOnce_eq_none_iff {d s : List Char} :
    splitOnce d s = none ↔ ¬ d <:+: s := by
  induction s with
  | nil =>
    by_cases hd : d = []
    · subst hd; simp [splitOnce]
    · simp [splitOnce, List.prefix_nil, List.infix_nil, hd]
  | cons c rest ih =>
    simp only [splitOnce]
    by_cases hp : d <+: c :: rest
    · simp [hp, List.infix_cons_iff]
    · cases hsp : splitOnce d rest with
      | none =>
        simp [hp, List.infix_cons_iff, ih.mp hsp]
      | some p =>
        have hin : d <:+: rest := by
          by_contra hc
          rw [ih.mpr hc] at hsp
          exact absurd hsp (by simp)
        simp [hp, List.infix_cons_iff, hin]

/-- When the first character of the delimiter occurs nowhere in l, the
first occurrence of the delimiter in l ++ delimiter ++ r is exactly after
l, so splitOnce splits there. -/
theorem splitOnce_head_notMem {c : Char} {d l r : List Char} (h : c ∉ l) :
    splitOnce (c :: d) (l ++ (c :: d) ++ r) = some (l, r) := by
  induction l with
  | nil =>
    simp only [List.nil_append]
    simp only [List.cons_append]
    simp only [splitOnce]
    rw [if_pos (by simp)]
    simp [List.append_eq, List.drop_left]
  | cons a l ih =>
    rw [List.mem_cons] at h
    push_neg at h
    obtain ⟨h1, h2⟩ := h
    have hnp : ¬ c :: d <+: a :: (l ++ ((c :: d) ++ r)) := by
      intro hp
      exact h1 (List.cons_prefix_cons.mp hp).1
    simp only [List.cons_append, List.append_assoc]
    simp only [splitOnce]
    rw [if_neg (by simpa using hnp)]
    have ih2 := ih h2
    simp only [List.append_assoc, List.cons_append] at ih2
    rw [ih2]

/-- When splitOnce succeeds on a single-character delimiter, that
character does not occur in the part before the split: the split happens
at the first occurrence. -/
theorem splitOnce_single_eq_some_notMem {c : Char} {s l r : List Char}
    (h : splitOnce [c] s = some (l, r)) : c ∉ l := by
  induction s generalizing l r with
  | nil =>
    simp [splitOnce, List.prefix_nil] at h
  | cons a rest ih =>
    simp only [splitOnce] at h
    split at h
    · rename_i hp
      obtain ⟨rfl, rfl⟩ : l = [] ∧ r = (a :: rest).drop [c].length := by
        simpa [eq_comm] using h
      exact List.not_mem_nil c
    · rename_i hp
      have hca : ¬ c = a := by
        intro he
        exact hp (by simp [List.cons_prefix_cons, he])
      cases hsp : splitOnce [c] rest with
      | none => rw [hsp] at h; exact absurd h (by simp)
      | some p =>
        obtain ⟨left, right⟩ := p
        rw [hsp] at h
        obtain ⟨rfl, rfl⟩ : l = a :: left ∧ r = right := by
          simpa [eq_comm] using h
        simpa [List.mem_cons, hca] using ih hsp

/-- A single-character splitOnce returns none exactly when the character
does not occur in the string. -/
theorem splitOnce_single_eq_none_iff {c : Char} {s : List Char} :
    splitOnce [c] s = none ↔ c ∉ s := by
  rw [splitOnce_eq_none_iff]
  constructor
  · intro h hc
    obtain ⟨l, r, rfl⟩ := List.append_of_mem hc
    exact h ⟨l, r, by simp⟩
  · intro h hin
    exact h (hin.subset (by simp))

/-- Url.new on an input without the "://" delimiter. -/
theorem Url.new_eq_of_split_none {s : List Char}
    (h : splitOnce "://".toList s = none) :
    Url.new s = .error ParseError.MissingSchemeDelimiter := by
  simp only [Url.new, h]

/-- Url.new on an input whose scheme part differs from "http". -/
theorem Url.new_eq_of_scheme_ne {s scheme rest : List Char}
    (h : splitOnce "://".toList s = some (scheme, rest))
    (hne : scheme ≠ "http".toList) :
    Url.new s = .error (ParseError.UnsupportedScheme scheme) := by
  simp only [Url.new, h]
  rw [if_pos hne]

/-- Url.new on an "http" input whose remainder contains a '/'. -/
theorem Url.new_eq_of_slash_some {s rest host path : List Char}
    (h : splitOnce "://".toList s = some ("http".toList, rest))
    (h2 : splitOnce ['/'] rest = some (host, path)) :
    Url.new s =
      if host = [] then .error ParseError.EmptyHost
      else .ok { scheme := "http".toList, host := host, path := '/' :: path, port := 80 } := by
  simp only [Url.new, h]
  rw [if_neg (fun hc => hc rfl)]
  simp only [h2]

/-- Url.new on an "http" input whose remainder contains no '/'. -/
theorem Url.new_eq_of_slash_none {s rest : List Char}
    (h : splitOnce "://".toList s = some ("http".toList, rest))
    (h2 : splitOnce ['/'] rest = none) :
    Url.new s =
      if rest = [] then .error ParseError.EmptyHost
      else .ok { scheme := "http".toList, host := rest, path := ['/'], port := 80 } := by
  simp only [Url.new, h]
  rw [if_neg (fun hc => hc rfl)]
  simp only [h2]

/-- Inversion: every Url produced by a successful Url.new has scheme
"http", port 80, a non-empty host free of '/', and a path starting with
'/'. -/
theorem Url.new_ok_inv {s : List Char} {u : Url} (h : Url.new s = .ok u) :
    u.scheme = "http".toList ∧ u.port = 80 ∧ u.host ≠ [] ∧ '/' ∉ u.host ∧
      ∃ t, u.path = '/' :: t := by
  cases hs : splitOnce "://".toList s with
  | none =>
    rw [Url.new_eq_of_split_none hs] at h
    exact absurd h (by simp)
  | some p =>
    obtain ⟨scheme, rest⟩ := p
    by_cases hsch : scheme = "http".toList
    · subst hsch
      cases hsp : splitOnce ['/'] rest with
      | some q =>
        obtain ⟨host, path⟩ := q
        rw [Url.new_eq_of_slash_some hs hsp] at h
        by_cases hh : host = []
        · rw [if_pos hh] at h; exact absurd h (by simp)
        · rw [if_neg hh] at h
          have hu : u = ⟨"http".toList, host, '/' :: path, 80⟩ := by
            simpa [eq_comm] using h
          subst hu
          exact ⟨rfl, rfl, hh, splitOnce_single_eq_some_notMem hsp, path, rfl⟩
      | none =>
        rw [Url.new_eq_of_slash_none hs hsp] at h
        by_cases hh : rest = []
        · rw [if_pos hh] at h; exact absurd h (by simp)
        · rw [if_neg hh] at h
          have hu : u = ⟨"http".toList, rest, ['/'], 80⟩ := by
            simpa [eq_comm] using h
          subst hu
          exact ⟨rfl, rfl, hh, splitOnce_single_eq_none_iff.mp hsp, [], rfl⟩
    · rw [Url.new_eq_of_scheme_ne hs hsch] at h
      exact absurd h (by simp)

/-- Parsing the string rebuilt from a non-empty '/'-free host and a path
with leading '/' succeeds and recovers exactly those components. -/
theorem Url.new_reconstruct {host t : List Char} (hne : host ≠ []) (hnm : '/' ∉ host) :
    Url.new ("http".toList ++ "://".toList ++ host ++ ('/' :: t)) =
      .ok { scheme := "http".toList, host := host, path := '/' :: t, port := 80 } := by
  have e1 : "://".toList = ':' :: ['/', '/'] := by decide
  have h1 : splitOnce "://".toList ("http".toList ++ "://".toList ++ host ++ ('/' :: t)) =
      some ("http".toList, host ++ ('/' :: t)) := by
    rw [e1]
    have hsp := @splitOnce_head_notMem ':' ['/', '/'] ("http".toList) (host ++ ('/' :: t)) (by decide)
    simpa [List.append_assoc] using hsp
  have h2 : splitOnce ['/'] (host ++ ('/' :: t)) = some (host, t) := by
    have hsp := @splitOnce_head_notMem '/' [] host t hnm
    simpa using hsp
  rw [Url.new_eq_of_slash_some h1 h2, if_neg hne]

/-- C1: every Url returned by a successful parse (Url.new) satisfies the
field invariants: scheme equals "http", the host is non-empty and
contains no '/', the path begins with '/', and the port equals 80. -/
theorem claim_C1_parsed_url_invariants (s : List Char) (u : Url)
    (h : Url.new s = .ok u) :
    u.scheme = "http".toList ∧ u.host ≠ [] ∧ '/' ∉ u.host ∧
      u.path.head? = some '/' ∧ u.port = 80 := by
  obtain ⟨h1, h2, h3, h4, t, h5⟩ := Url.new_ok_inv h
  exact ⟨h1, h3, h4, by rw [h5]; rfl, h2⟩

/-- Witness for C1 at the input "http://example.com/index.html". -/
theorem claim_C1_witness :
    Url.new "http://example.com/index.html".toList = .ok exampleUrl ∧
      (exampleUrl.scheme = "http".toList ∧ exampleUrl.host ≠ [] ∧
        '/' ∉ exampleUrl.host ∧ exampleUrl.path.head? = some '/' ∧
        exampleUrl.port = 80) :=
  ⟨by decide, claim_C1_parsed_url_invariants "http://example.com/index.html".toList
    exampleUrl (by decide)⟩

/-- C2: every input without the substring "://" fails with the
MissingSchemeDelimiter error, producing no Url. -/
theorem claim_C2_missing_delimiter (s : List Char)
    (h : ¬ "://".toList <:+: s) :
    Url.new s = .error ParseError.MissingSchemeDelimiter :=
  Url.new_eq_of_split_none (splitOnce_eq_none_iff.mpr h)

/-- Witness for C2 at the input "example.com". -/
theorem claim_C2_witness :
    ¬ "://".toList <:+: "example.com".toList ∧
      Url.new "example.com".toList = .error ParseError.MissingSchemeDelimiter :=
  ⟨by decide, claim_C2_missing_delimiter "example.com".toList (by decide)⟩

/-- C3: every input containing "://" whose part before the first "://"
differs from the exact literal "http" fails with UnsupportedScheme
carrying that scheme text; in particular "ftp://example.com" fails with
UnsupportedScheme "ftp". -/
theorem claim_C3_unsupported_scheme :
    (∀ s scheme rest : List Char,
        splitOnce "://".toList s = some (scheme, rest) →
        scheme ≠ "http".toList →
        Url.new s = .error (ParseError.UnsupportedScheme scheme)) ∧
      Url.new "ftp://example.com".toList =
        .error (ParseError.UnsupportedScheme "ftp".toList) :=
  ⟨fun _ _ _ h hne => Url.new_eq_of_scheme_ne h hne, by decide⟩

/-- Witness for C3 at the input "gopher://x". -/
theorem claim_C3_witness :
    splitOnce "://".toList "gopher://x".toList = some ("gopher".toList, "x".toList) ∧
      "gopher".toList ≠ "http".toList ∧
      Url.new "gopher://x".toList =
        .error (ParseError.UnsupportedScheme "gopher".toList) :=
  ⟨by decide, by decide,
    claim_C3_unsupported_scheme.1 "gopher://x".toList "gopher".toList "x".toList
      (by decide) (by decide)⟩

/-- C4: when the scheme is "http" and the host segment of the remainder
(the part before the first '/', or the whole remainder when no '/'
occurs) is empty, parse fails with EmptyHost; in particular "http:///a"
fails with EmptyHost. -/
theorem claim_C4_empty_host :
    (∀ s rest : List Char,
        splitOnce "://".toList s = some ("http".toList, rest) →
        rest.takeWhile (fun c => c ≠ '/') = [] →
        Url.new s = .error ParseError.EmptyHost) ∧
      Url.new "http:///a".toList = .error ParseError.EmptyHost := by
  refine ⟨fun s rest hs hw => ?_, by decide⟩
  cases rest with
  | nil =>
    rw [Url.new_eq_of_slash_none hs (by decide)]
    simp
  | cons c t =>
    have hc : c = '/' := by
      by_contra hcc
      simp [List.takeWhile_cons, hcc] at hw
    subst hc
    have h2 : splitOnce ['/'] ('/' :: t) = some ([], t) := by
      simp [splitOnce]
    rw [Url.new_eq_of_slash_some hs h2]
    simp

/-- Witness for C4 at the input "http:///a". -/
theorem claim_C4_witness :
    splitOnce "://".toList "http:///a".toList = some ("http".toList, "/a".toList) ∧
      ("/a".toList).takeWhile (fun c => c ≠ '/') = [] ∧
      Url.new "http:///a".toList = .error ParseError.EmptyHost :=
  ⟨by decide, by decide,
    claim_C4_empty_host.1 "http:///a".toList "/a".toList (by decide) (by decide)⟩

/-- C5 as stated is false: the input "http://" has an empty remainder
after "http://", which contains no '/', yet parse does not return a Url
with the entire remainder as host and path "/"; it fails with EmptyHost. -/
theorem claim_C5_counterexample :
    Url.new "http://".toList = .error ParseError.EmptyHost ∧
      Url.new "http://".toList ≠
        .ok { scheme := "http".toList, host := [], path := ['/'], port := 80 } := by
  decide

/-- C5 (amended): for every input with scheme "http" whose remainder
after "://" is non-empty and contains no '/', parse takes the entire
remainder as the host and the path defaults to "/"; in particular
"http://example.com" and "http://example.com/" both parse to the Url
with host "example.com", path "/" and port 80. -/
theorem claim_C5_no_slash_whole_host :
    (∀ s rest : List Char,
        splitOnce "://".toList s = some ("http".toList, rest) →
        '/' ∉ rest → rest ≠ [] →
        Url.new s =
          .ok { scheme := "http".toList, host := rest, path := ['/'], port := 80 }) ∧
      Url.new "http://example.com".toList =
        .ok { scheme := "http".toList, host := "example.com".toList,
              path := ['/'], port := 80 } ∧
      Url.new "http://example.com/".toList =
        .ok { scheme := "http".toList, host := "example.com".toList,
              path := ['/'], port := 80 } := by
  refine ⟨fun s rest hs hnm hne => ?_, by decide, by decide⟩
  rw [Url.new_eq_of_slash_none hs (splitOnce_single_eq_none_iff.mpr hnm), if_neg hne]

/-- Witness for the amended C5 at the input "http://h". -/
theorem claim_C5_witness :
    splitOnce "://".toList "http://h".toList = some ("http".toList, "h".toList) ∧
      '/' ∉ "h".toList ∧ "h".toList ≠ [] ∧
      Url.new "http://h".toList =
        .ok { scheme := "http".toList, host := "h".toList, path := ['/'], port := 80 } :=
  ⟨by decide, by decide, by decide,
    claim_C5_no_slash_whole_host.1 "http://h".toList "h".toList
      (by decide) (by decide) (by decide)⟩

/-- C6 as stated is false: the input "http:///a" has the remainder "/a"
containing a '/', yet parse does not return a Url whose host is the part
before the first '/' (the empty string) with path "/a"; it fails with
EmptyHost. -/
theorem claim_C6_counterexample :
    Url.new "http:///a".toList = .error ParseError.EmptyHost ∧
      Url.new "http:///a".toList ≠
        .ok { scheme := "http".toList, host := [], path := "/a".toList, port := 80 } := by
  decide

/-- C6 (amended): for every input with scheme "http" whose remainder
contains a '/' and whose part before the first '/' is non-empty, parse
splits only at the first '/': the part before it is the host (which
contains no '/'), the path is '/' prepended to the part after it kept
verbatim, and host ++ path equals the remainder exactly; in particular
"http://example.com/a/b" parses to host "example.com" and path "/a/b". -/
theorem claim_C6_split_at_first_slash :
    (∀ s rest host path : List Char,
        splitOnce "://".toList s = some ("http".toList, rest) →
        splitOnce ['/'] rest = some (host, path) →
        host ≠ [] →
        Url.new s =
            .ok { scheme := "http".toList, host := host, path := '/' :: path, port := 80 } ∧
          '/' ∉ host ∧ host ++ ('/' :: path) = rest) ∧
      Url.new "http://example.com/a/b".toList =
        .ok { scheme := "http".toList, host := "example.com".toList,
              path := "/a/b".toList, port := 80 } := by
  refine ⟨fun s rest host path hs hsp hne => ?_, by decide⟩
  refine ⟨by rw [Url.new_eq_of_slash_some hs hsp, if_neg hne],
    splitOnce_single_eq_some_notMem hsp, ?_⟩
  have hr := splitOnce_eq_some_append hsp
  simp [hr]

/-- Witness for the amended C6 at the input "http://a/b". -/
theorem claim_C6_witness :
    splitOnce "://".toList "http://a/b".toList = some ("http".toList, "a/b".toList) ∧
      splitOnce ['/'] "a/b".toList = some ("a".toList, "b".toList) ∧
      "a".toList ≠ [] ∧
      (Url.new "http://a/b".toList =
          .ok { scheme := "http".toList, host := "a".toList,
                path := '/' :: "b".toList, port := 80 } ∧
        '/' ∉ "a".toList ∧ "a".toList ++ ('/' :: "b".toList) = "a/b".toList) :=
  ⟨by decide, by decide, by decide,
    claim_C6_split_at_first_slash.1 "http://a/b".toList "a/b".toList
      "a".toList "b".toList (by decide) (by decide) (by decide)⟩

/-- C7: round-trip — for every Url returned by a successful parse,
reparsing the reconstructed string scheme ++ "://" ++ host ++ path
succeeds and yields an equal Url. -/
theorem claim_C7_roundtrip (s : List Char) (u : Url) (h : Url.new s = .ok u) :
    Url.new (u.scheme ++ "://".toList ++ u.host ++ u.path) = .ok u := by
  obtain ⟨h1, h2, h3, h4, t, h5⟩ := Url.new_ok_inv h
  obtain ⟨scheme, host, path, port⟩ := u
  simp only at h1 h2 h3 h4 h5 ⊢
  subst h1 h2 h5
  exact Url.new_reconstruct h3 h4

/-- Witness for C7 at the input "http://example.com/index.html". -/
theorem claim_C7_witness :
    Url.new "http://example.com/index.html".toList = .ok exampleUrl ∧
      Url.new (exampleUrl.scheme ++ "://".toList ++ exampleUrl.host ++ exampleUrl.path) =
        .ok exampleUrl :=
  ⟨by decide,
    claim_C7_roundtrip "http://example.com/index.html".toList exampleUrl (by decide)⟩

/-- C8: Url.new is a total function on strings: for every input it
returns either a Url or exactly one of the three parse error variants. -/
theorem claim_C8_parse_total (s : List Char) :
    (∃ u, Url.new s = .ok u) ∨
      Url.new s = .error ParseError.MissingSchemeDelimiter ∨
      (∃ scheme, Url.new s = .error (ParseError.UnsupportedScheme scheme)) ∨
      Url.new s = .error ParseError.EmptyHost := by
  cases h : Url.new s with
  | ok u => exact Or.inl ⟨u, rfl⟩
  | error e =>
    cases e with
    | MissingSchemeDelimiter => exact Or.inr (Or.inl rfl)
    | UnsupportedScheme scheme => exact Or.inr (Or.inr (Or.inl ⟨scheme, rfl⟩))
    | EmptyHost => exact Or.inr (Or.inr (Or.inr rfl))

/-- C10: every input beginning with "://" has the empty candidate scheme,
so parse fails with UnsupportedScheme carrying the empty scheme text, not
with MissingSchemeDelimiter. -/
theorem claim_C10_empty_scheme (r : List Char) :
    Url.new ("://".toList ++ r) = .error (ParseError.UnsupportedScheme []) := by
  have e1 : "://".toList = ':' :: ['/', '/'] := by decide
  have h1 : splitOnce "://".toList ("://".toList ++ r) = some ([], r) := by
    rw [e1]
    have hsp := @splitOnce_head_notMem ':' ['/', '/'] [] r (by simp)
    simpa using hsp
  exact Url.new_eq_of_scheme_ne h1 (by decide)
